import Mathlib

/-!
Shallow embedding of the CycleStats grouping-and-aggregation engine
(the `cyclestats` processor plugin): metrics, the grouping-key function,
the group cache, the completeness check, merge/aggregate, and the
`Apply` pipeline driver, translated from the Go source.

Go machine details modelled: a Go string is a sequence of characters
(`List Char` for group keys, Lean `String` for names and field keys);
a Go `map` is an association list with first-match lookup and zero-value
defaults (`nil` slice for a missing key, hence length 0); a Go `error`
return is `Option String` (`none` = nil) or `Except String`; the
`m.Drop()` call only marks delivery tracking and has no effect on engine
state, so it is not modelled.
-/

/-- Association-list lookup, modelling a Go map read: first matching key wins. -/
def alookup {α β : Type} [DecidableEq α] : List (α × β) → α → Option β
  | [], _ => none
  | (k, v) :: rest, key => if k = key then some v else alookup rest key

/-- Go map read with the zero value for a missing key. -/
def lookupD {α β : Type} [DecidableEq α] (l : List (α × β)) (k : α) (d : β) : β :=
  (alookup l k).getD d

/-- Field values carried by a telegraf metric (interface value: numeric, bool or string). -/
inductive FValue : Type where
  | intV : Int → FValue
  | boolV : Bool → FValue
  | strV : String → FValue
deriving DecidableEq

/-- A telegraf metric: measurement name, timestamp (nanoseconds), tags and fields. -/
structure Metric : Type where
  name : String
  time : Nat
  tags : List (String × String)
  fields : List (String × FValue)
deriving DecidableEq

/-- telegraf `Metric.HasField`: whether a field with the given key is present. -/
def Metric.HasField (m : Metric) (f : String) : Bool :=
  (alookup m.fields f).isSome

/-- telegraf `Metric.Copy`: a value copy of the metric. -/
def Metric.Copy (m : Metric) : Metric := m

/-- telegraf `Metric.AddField` on the field list: overwrite the value in place when
the key exists, otherwise append the new field at the end. -/
def addFieldList : List (String × FValue) → String → FValue → List (String × FValue)
  | [], k, v => [(k, v)]
  | (k0, v0) :: rest, k, v =>
      if k0 = k then (k, v) :: rest else (k0, v0) :: addFieldList rest k v

/-- telegraf `Metric.AddField`: overwrite-or-append a field. -/
def Metric.AddField (m : Metric) (k : String) (v : FValue) : Metric :=
  { m with fields := addFieldList m.fields k v }

/-- Decimal digits of a Nat, most significant first (fuel-based structural recursion). -/
def natToCharsAux : Nat → Nat → List Char
  | 0, _ => []
  | fuel + 1, n =>
      if n < 10 then [Nat.digitChar n]
      else natToCharsAux fuel (n / 10) ++ [Nat.digitChar (n % 10)]

/-- Modelled rendering of a Go `time.Time` value as its nanosecond count in decimal.
Go's `Time.String()` produces a date/clock/zone text made of digits, spaces, and the
characters of '-', ':', '.', '+' and zone letters; it never contains the character
'&' and is determined by the instant. This model keeps exactly those properties. -/
def natToChars (n : Nat) : List Char :=
  natToCharsAux (n + 1) n

/-- Go `Time.Truncate(1000 * time.Millisecond)` on a nanosecond timestamp:
round down to a whole second. -/
def truncSec (t : Nat) : Nat :=
  t / 1000000000 * 1000000000

/-- Group key built in `generateGroupByKey`:
`m.Name() + "&" + m.Time().Truncate(1000*time.Millisecond).String()`. -/
def gkeyFn (m : Metric) : List Char :=
  m.name.data ++ '&' :: natToChars (truncSec m.time)

/-- Modelled from the spec: the grouping patterns are compiled by the external
glob-filter library `telegraf/filter`, which is not part of this repository; the
spec's configuration-error taxonomy says compilation fails when a pattern is
malformed ("no grouping pattern compiles"). Well-formedness is modelled as
bracket balance, so the default pattern "*" compiles and "[" does not. -/
def patternOk (s : String) : Bool :=
  s.data.count '[' = s.data.count ']'

/-- Modelled from the spec: `filter.Compile` succeeds iff every pattern compiles. -/
def filterCompile (pats : List String) : Bool :=
  pats.all patternOk

/-- The CycleStats engine state: configuration (`Name`, `GroupBy`, `Fields`),
the group cache, and the lazily compiled filters (presence only). -/
structure CycleStats : Type where
  Name : String
  GroupBy : List String
  Fields : List (String × List String)
  cache : List (List Char × List Metric)
  filters : Option Unit
deriving DecidableEq

/-- The required-field table seeded in `New()`. `steam_stats` is assigned twice
there with the identical list; a single entry models the resulting map. -/
def newFields : List (String × List String) :=
  [("steam_params",
    ["steam_type", "cook_temp", "control_temp", "hot_drain_temp", "pv_unsafe",
     "pv_too_low", "drain_open_duration", "drain_to_sec1", "drain_to_sec2",
     "wait_pressure"]),
   ("steam_stats",
    ["error", "flows", "pd_timeouts", "stag_recoveries", "stop_cook_count"]),
   ("vessel_status",
    ["lid_position", "shroud_inside_up", "shroud_inside_down", "shroud_outside_up",
     "shroud_outside_down", "shrouds", "vessel_temperature", "heater_temperature",
     "runaway_temperature", "pv_sensor_type", "vessel_pressure", "seal_pressure",
     "accumulator_pressure", "top_cover", "top_lid_open", "top_lid_closed",
     "bottom_lid_open", "bottom_lid_closed"]),
   ("system_status",
    ["cover_interlock", "battery_fault", "line_current", "deodorizer_tank",
     "oil_tank", "flow_count", "bag_door", "top_cover", "reservoir", "fans"]),
   ("sys_status_mngr",
    ["heater", "vacuum", "water", "compressor"]),
   ("grinder",
    ["grinder_state", "jack_status", "switches_bottom", "switches_top",
     "reversals"]),
   ("vessel_lid_failure",
    ["top_lid_open_failed", "top_lid_close_failed", "bottom_lid_open_failed",
     "bottom_lid_close_failed", "inside_shroud_open_failed",
     "inside_shroud_close_failed", "accumulator_not_pressurized",
     "seals_vacuum_failed", "jack_up_failed", "close_seals_failed",
     "vent_seals_failed", "compressor_throttled", "pv_mismatch", "error"])]

/-- `New()`: default configuration with the seeded field table, the match-all
grouping pattern, an empty cache and no compiled filters yet. -/
def New : CycleStats :=
  { Name := "", GroupBy := ["*"], Fields := newFields, cache := [], filters := none }

/-- `Init()`: logs and returns nil, unconditionally (`Option String` models the
Go error result; `none` is nil). -/
def Init (_ : CycleStats) : Option String := none

/-- `Reset()`: replace the cache with a fresh empty map. -/
def Reset (t : CycleStats) : CycleStats :=
  { t with cache := [] }

/-- `generateGroupByKey`: lazily compile the grouping patterns on first use
(an error if they do not compile), then return the name-and-truncated-time key.
The updated engine state (the compiled-filters mark) is returned alongside. -/
def generateGroupByKey (t : CycleStats) (m : Metric) :
    Except String (List Char) × CycleStats :=
  if t.filters.isNone && !t.GroupBy.isEmpty then
    if filterCompile t.GroupBy then
      (Except.ok (gkeyFn m), { t with filters := some () })
    else
      (Except.error "could not compile pattern", t)
  else
    (Except.ok (gkeyFn m), t)

/-- Cache update used by `groupBy`: initialize the key with an empty list when
absent, then append the metric to the key's list. -/
def cacheAppend : List (List Char × List Metric) → List Char → Metric →
    List (List Char × List Metric)
  | [], k, m => [(k, [m])]
  | (k0, ms) :: rest, k, m =>
      if k0 = k then (k0, ms ++ [m]) :: rest else (k0, ms) :: cacheAppend rest k m

/-- Go read `t.cache[groupkey]`: the buffered list, or the nil slice when absent. -/
def cacheLookupD (c : List (List Char × List Metric)) (k : List Char) : List Metric :=
  (alookup c k).getD []

/-- `groupBy`: compute the key; on error log and drop the metric, otherwise
buffer the metric under its key. -/
def groupBy (t : CycleStats) (m : Metric) : CycleStats :=
  match generateGroupByKey t m with
  | (Except.error _, t1) => t1
  | (Except.ok k, t1) => { t1 with cache := cacheAppend t1.cache k m }

/-- One `Aggregate` merge step: write every field of `m` onto the accumulator
with `AddField` (last-writer-wins), in field-list order. -/
def addAllFields (acc : Metric) (m : Metric) : Metric :=
  m.fields.foldl (fun a kv => a.AddField kv.1 kv.2) acc

/-- `Aggregate`: copy the first buffered metric as the base, then add every
subsequent metric's fields onto it. The Go code returns a nil metric for an
empty buffer; `none` models that nil interface value. -/
def Aggregate : List Metric → Option Metric
  | [] => none
  | m :: rest => some (rest.foldl addAllFields m.Copy)

/-- `push`: one aggregate per cached group (Go map iteration modelled in
insertion order), then reset the cache. -/
def push (t : CycleStats) : List (Option Metric) × CycleStats :=
  (t.cache.map fun e => Aggregate e.2, Reset t)

/-- The loop body of `Apply` over the incoming batch, threading the engine
state, the last computed `groupkey` (the empty string when key generation
errored, as in Go) and the last `measurment` name (keeping the source's
spelling). Metrics carrying none of their measurement's required fields are
skipped; the rest are buffered via `groupBy`. -/
def applyLoop : CycleStats → List Char → String → List Metric →
    CycleStats × List Char × String
  | t, gk, meas, [] => (t, gk, meas)
  | t, _, _, m :: rest =>
      let p := generateGroupByKey t m
      let gkey : List Char :=
        match p.1 with
        | Except.ok k => k
        | Except.error _ => []
      let hasField := (lookupD t.Fields m.name []).any fun f => m.HasField f
      let t2 := if hasField then groupBy p.2 m else p.2
      applyLoop t2 gkey m.name rest

/-- The state, groupkey and measurement name after `Apply`'s loop, starting
from the Go zero values `""` for both strings. -/
def applyLoopRes (t : CycleStats) (ins : List Metric) :
    CycleStats × List Char × String :=
  applyLoop t [] "" ins

/-- `Apply`: buffer the batch, then compare the count buffered under the last
metric's key against the length of the required-field list for the last
measurement name; on completeness flush the whole cache, else return nothing. -/
def Apply (t : CycleStats) (ins : List Metric) : List (Option Metric) × CycleStats :=
  let r := applyLoopRes t ins
  if (cacheLookupD r.1.cache r.2.1).length ≥ (lookupD r.1.Fields r.2.2 []).length then
    push r.1
  else
    ([], r.1)

/-- Completeness condition of `Apply` after its loop, as a boolean. -/
def completeAfter (t : CycleStats) (ins : List Metric) : Bool :=
  let r := applyLoopRes t ins
  decide ((cacheLookupD r.1.cache r.2.1).length ≥ (lookupD r.1.Fields r.2.2 []).length)

/-- Repeated invocation of `Apply`, one metric per call, collecting each
call's returned batch. -/
def applyChain : CycleStats → List Metric → List (List (Option Metric)) × CycleStats
  | t, [] => ([], t)
  | t, m :: rest =>
      let r := Apply t [m]
      let rr := applyChain r.2 rest
      (r.1 :: rr.1, rr.2)

/-- Key-computation success condition: filters already compiled, no patterns,
or patterns that compile. -/
def keyOk (t : CycleStats) : Prop :=
  t.filters ≠ none ∨ t.GroupBy = [] ∨ filterCompile t.GroupBy = true

/-- The filter-compilation side effect of a successful `generateGroupByKey`. -/
def compileStep (t : CycleStats) : CycleStats :=
  if t.filters.isNone && !t.GroupBy.isEmpty then { t with filters := some () } else t

/-- Last-writer-wins field lookup over a buffer, in buffer order: the value of
the latest buffered metric that carries the key, if any. Stated from the
spec's merge description, to be compared with `Aggregate`. -/
def lwwLookup (ms : List Metric) (k : String) : Option FValue :=
  ms.foldl
    (fun acc x =>
      match alookup x.fields k with
      | some v => some v
      | none => acc)
    none

/-- Cache shape: every cached buffer is non-empty. -/
def cacheWF (t : CycleStats) : Prop :=
  ∀ e ∈ t.cache, e.2 ≠ []

/-- A single-group cache holding buffer `buf` under key `gk`; the empty cache
when nothing has been buffered. -/
def bufCache (gk : List Char) (buf : List Metric) : List (List Char × List Metric) :=
  match buf with
  | [] => []
  | _ => [(gk, buf)]

/-- Concrete metric fixtures used to instantiate proved theorems. -/
def mW1 : Metric :=
  { name := "steam", time := 0, tags := [("host", "h")], fields := [("a", FValue.intV 1)] }

def mW1b : Metric :=
  { name := "steam", time := 250000000, tags := [("host", "k")],
    fields := [("b", FValue.intV 2)] }

def mWx1 : Metric :=
  { name := "steam", time := 0, tags := [("host", "h")], fields := [("x", FValue.intV 1)] }

def mWx2 : Metric :=
  { name := "steam", time := 250000000, tags := [("host", "k")],
    fields := [("x", FValue.intV 2)] }

def mWz : Metric :=
  { name := "grind", time := 0, tags := [], fields := [("g", FValue.intV 7)] }

def scW : Metric :=
  { name := "state_change", time := 5, tags := [], fields := [] }

def uW : Metric :=
  { name := "nosuch", time := 9, tags := [], fields := [("z", FValue.intV 3)] }

/-- Concrete engine fixtures: a small two-field table with an empty cache, the
same with one buffered group, a one-field table with one buffered group, and a
configuration whose grouping pattern does not compile. -/
def tW : CycleStats :=
  { Name := "", GroupBy := ["*"], Fields := [("steam", ["a", "b"])], cache := [],
    filters := none }

def tWne : CycleStats :=
  { Name := "", GroupBy := ["*"], Fields := [("steam", ["a", "b"])],
    cache := [(gkeyFn mWz, [mWz])], filters := none }

def tW1f : CycleStats :=
  { Name := "", GroupBy := ["*"], Fields := [("steam", ["a"])],
    cache := [(gkeyFn mWz, [mWz])], filters := none }

def tBadCfg : CycleStats :=
  { Name := "", GroupBy := ["["], Fields := [("steam", ["a", "b"])], cache := [],
    filters := none }

/-! Helper lemmas about the engine's primitive operations. -/

theorem alookup_eq_none {α β : Type} [DecidableEq α] :
    ∀ (l : List (α × β)) (k : α), k ∉ l.map Prod.fst → alookup l k = none := by
  intro l k h
  induction l with
  | nil => rfl
  | cons e rest ih =>
      simp only [List.map_cons, List.mem_cons, not_or] at h
      obtain ⟨h1, h2⟩ := h
      obtain ⟨k0, v0⟩ := e
      simp only [alookup]
      rw [if_neg (by simpa using fun he => h1 he.symm)]
      exact ih h2

theorem genKey_snd_cache (t : CycleStats) (m : Metric) :
    ((generateGroupByKey t m).2).cache = t.cache := by
  unfold generateGroupByKey
  split <;> [skip; rfl]
  split <;> rfl

theorem genKey_snd_Fields (t : CycleStats) (m : Metric) :
    ((generateGroupByKey t m).2).Fields = t.Fields := by
  unfold generateGroupByKey
  split <;> [skip; rfl]
  split <;> rfl

theorem compileStep_cache (t : CycleStats) : (compileStep t).cache = t.cache := by
  unfold compileStep
  split <;> rfl

theorem compileStep_Fields (t : CycleStats) : (compileStep t).Fields = t.Fields := by
  unfold compileStep
  split <;> rfl

theorem compileStep_GroupBy (t : CycleStats) : (compileStep t).GroupBy = t.GroupBy := by
  unfold compileStep
  split <;> rfl

theorem keyOk_compileStep (t : CycleStats) (h : keyOk t) : keyOk (compileStep t) := by
  unfold compileStep
  split
  · exact Or.inl (by simp)
  · exact h

theorem keyOk_update_cache (t : CycleStats) (c : List (List Char × List Metric))
    (h : keyOk t) : keyOk { t with cache := c } := h

theorem compileStep_update_cache (t : CycleStats) (c : List (List Char × List Metric)) :
    compileStep { t with cache := c } = { compileStep t with cache := c } := by
  unfold compileStep
  by_cases h : t.filters.isNone && !t.GroupBy.isEmpty
  · rw [if_pos h, if_pos h]
  · rw [if_neg h, if_neg h]

theorem compileStep_idem (t : CycleStats) : compileStep (compileStep t) = compileStep t := by
  unfold compileStep
  by_cases h : t.filters.isNone && !t.GroupBy.isEmpty
  · rw [if_pos h]
    rw [if_neg (by simp)]
  · rw [if_neg h, if_neg h]

theorem genKey_of_keyOk (t : CycleStats) (m : Metric) (h : keyOk t) :
    generateGroupByKey t m = (Except.ok (gkeyFn m), compileStep t) := by
  unfold generateGroupByKey compileStep
  by_cases hc : t.filters.isNone && !t.GroupBy.isEmpty
  · rw [if_pos hc, if_pos hc]
    have hfn : t.filters = none := by
      have := (Bool.and_eq_true _ _).mp hc
      exact Option.isNone_iff_eq_none.mp this.1
    have hgb : t.GroupBy ≠ [] := by
      have := (Bool.and_eq_true _ _).mp hc
      simpa [List.isEmpty_iff] using this.2
    have hcmp : filterCompile t.GroupBy = true := by
      rcases h with h | h | h
      · exact absurd hfn h
      · exact absurd h hgb
      · exact h
    rw [if_pos hcmp]
  · rw [if_neg hc, if_neg hc]

theorem groupBy_of_keyOk (t : CycleStats) (m : Metric) (h : keyOk t) :
    groupBy t m = { compileStep t with cache := cacheAppend t.cache (gkeyFn m) m } := by
  simp only [groupBy, genKey_of_keyOk t m h, compileStep_cache]

theorem groupBy_cache_of_error (t : CycleStats) (m : Metric)
    (h : ∀ k t1, generateGroupByKey t m ≠ (Except.ok k, t1)) :
    (groupBy t m).cache = t.cache := by
  unfold groupBy
  rcases hg : generateGroupByKey t m with ⟨r, t1⟩
  cases r with
  | error e =>
      have : t1.cache = t.cache := by
        have := genKey_snd_cache t m
        rw [hg] at this
        exact this
      simpa using this
  | ok k => exact absurd hg (by simpa using h k t1)

theorem applyLoop_nil (t : CycleStats) (gk : List Char) (meas : String) :
    applyLoop t gk meas [] = (t, gk, meas) := rfl

theorem applyLoop_cons (t : CycleStats) (gk : List Char) (meas : String)
    (m : Metric) (rest : List Metric) :
    applyLoop t gk meas (m :: rest) =
      applyLoop
        (if (lookupD t.Fields m.name []).any (fun f => m.HasField f) then
          groupBy (generateGroupByKey t m).2 m
        else (generateGroupByKey t m).2)
        (match (generateGroupByKey t m).1 with
         | Except.ok k => k
         | Except.error _ => [])
        m.name rest := rfl

theorem applyLoop_cons_buffered (t : CycleStats) (gk : List Char) (meas : String)
    (m : Metric) (rest : List Metric) (h : keyOk t)
    (hhas : (lookupD t.Fields m.name []).any (fun f => m.HasField f) = true) :
    applyLoop t gk meas (m :: rest) =
      applyLoop { compileStep t with cache := cacheAppend t.cache (gkeyFn m) m }
        (gkeyFn m) m.name rest := by
  rw [applyLoop_cons, if_pos hhas, genKey_of_keyOk t m h]
  rw [groupBy_of_keyOk _ m (keyOk_compileStep t h), compileStep_idem, compileStep_cache]

theorem applyLoop_cons_skipped (t : CycleStats) (gk : List Char) (meas : String)
    (m : Metric) (rest : List Metric)
    (hhas : (lookupD t.Fields m.name []).any (fun f => m.HasField f) = false) :
    applyLoop t gk meas (m :: rest) =
      applyLoop (generateGroupByKey t m).2
        (match (generateGroupByKey t m).1 with
         | Except.ok k => k
         | Except.error _ => [])
        m.name rest := by
  rw [applyLoop_cons, if_neg (by simp [hhas])]

theorem applyLoop_append (xs : List Metric) :
    ∀ (t : CycleStats) (gk : List Char) (meas : String) (ys : List Metric),
      applyLoop t gk meas (xs ++ ys) =
        applyLoop (applyLoop t gk meas xs).1 (applyLoop t gk meas xs).2.1
          (applyLoop t gk meas xs).2.2 ys := by
  induction xs with
  | nil => intro t gk meas ys; rfl
  | cons m xs ih =>
      intro t gk meas ys
      rw [List.cons_append, applyLoop_cons, applyLoop_cons]
      exact ih _ _ _ ys

theorem cacheAppend_bufCache (gk : List Char) (buf : List Metric) (m : Metric) :
    cacheAppend (bufCache gk buf) gk m = bufCache gk (buf ++ [m]) := by
  cases buf with
  | nil => rfl
  | cons b bs => simp [bufCache, cacheAppend]

theorem cacheLookupD_bufCache (gk : List Char) (buf : List Metric) :
    cacheLookupD (bufCache gk buf) gk = buf := by
  cases buf with
  | nil => rfl
  | cons b bs => simp [bufCache, cacheLookupD, alookup]

/-! Lemmas about the decimal rendering and the group-key string. -/

theorem natToCharsAux_mem :
    ∀ (fuel n : Nat) (c : Char), c ∈ natToCharsAux fuel n → ∃ d, d < 10 ∧ c = Nat.digitChar d := by
  intro fuel
  induction fuel with
  | zero => intro n c h; simp [natToCharsAux] at h
  | succ fuel ih =>
      intro n c h
      by_cases hn : n < 10
      · rw [natToCharsAux, if_pos hn] at h
        simp only [List.mem_singleton] at h
        exact ⟨n, hn, h⟩
      · rw [natToCharsAux, if_neg hn] at h
        rcases List.mem_append.mp h with h1 | h2
        · exact ih _ c h1
        · simp only [List.mem_singleton] at h2
          exact ⟨n % 10, Nat.mod_lt n (by omega), h2⟩

theorem digitChar_ne_amp : ∀ d, d < 10 → Nat.digitChar d ≠ '&' := by decide

theorem amp_not_mem_natToChars (n : Nat) : '&' ∉ natToChars n := by
  intro h
  obtain ⟨d, hd, hc⟩ := natToCharsAux_mem (n + 1) n '&' h
  exact digitChar_ne_amp d hd hc.symm

theorem append_amp_inj :
    ∀ (a b s1 s2 : List Char), '&' ∉ s1 → '&' ∉ s2 →
      a ++ '&' :: s1 = b ++ '&' :: s2 → a = b := by
  intro a
  induction a with
  | nil =>
      intro b s1 s2 h1 h2 he
      cases b with
      | nil => rfl
      | cons d ds =>
          simp only [List.nil_append, List.cons_append, List.cons_eq_cons] at he
          rw [he.2] at h1
          exact absurd (List.mem_append_right ds (List.mem_cons_self '&' s2)) h1
  | cons c cs ih =>
      intro b s1 s2 h1 h2 he
      cases b with
      | nil =>
          simp only [List.nil_append, List.cons_append, List.cons_eq_cons] at he
          rw [← he.2] at h2
          exact absurd (List.mem_append_right cs (List.mem_cons_self '&' s1)) h2
      | cons d ds =>
          simp only [List.cons_append, List.cons_eq_cons] at he
          rw [he.1, ih ds s1 s2 h1 h2 he.2]

/-- Claim C8: two metrics with the same measurement name and timestamps in the
same truncated second get the same group key, and two metrics with different
measurement names always get different group keys. -/
theorem groupkey_characterization :
    (∀ m1 m2 : Metric, m1.name = m2.name → truncSec m1.time = truncSec m2.time →
      gkeyFn m1 = gkeyFn m2) ∧
    (∀ m1 m2 : Metric, m1.name ≠ m2.name → gkeyFn m1 ≠ gkeyFn m2) := by
  constructor
  · intro m1 m2 hn ht
    unfold gkeyFn
    rw [hn, ht]
  · intro m1 m2 hn he
    unfold gkeyFn at he
    have hd : m1.name.data = m2.name.data :=
      append_amp_inj m1.name.data m2.name.data _ _
        (amp_not_mem_natToChars (truncSec m1.time))
        (amp_not_mem_natToChars (truncSec m2.time)) he
    exact hn (congrArg String.mk hd)

/-- Witness for C8 at concrete metrics: `mW1` and `mW1b` share name "steam" and
the same truncated second, `mWz` has a different name. -/
theorem groupkey_characterization_witness :
    gkeyFn mW1 = gkeyFn mW1b ∧ gkeyFn mW1 ≠ gkeyFn mWz :=
  ⟨groupkey_characterization.1 mW1 mW1b (by decide) (by decide),
   groupkey_characterization.2 mW1 mWz (by decide)⟩

/-- Claim C9, counterexample: the engine `tBadCfg` has a grouping pattern that
does not compile, yet `Init` returns no error (Go `nil`); the error instead
surfaces at key-computation time inside `Apply`. -/
theorem init_counterexample :
    filterCompile tBadCfg.GroupBy = false ∧ Init tBadCfg = none ∧
      (generateGroupByKey tBadCfg mW1).1 = Except.error "could not compile pattern" := by
  refine ⟨by decide, rfl, rfl⟩

/-- Claim C9, amended: initialization never returns an error, whatever the
configuration; pattern compilation is lazy, so with a compilable (or already
compiled, or empty) pattern list the key computation is total and returns the
deterministic name-and-truncated-second key, while a non-compiling pattern list
makes the key computation return an error during `Apply`, where `groupBy`
drops the metric and leaves the cache unchanged. -/
theorem init_lazy_compilation :
    (∀ t : CycleStats, Init t = none) ∧
    (∀ (t : CycleStats) (m : Metric), keyOk t →
      generateGroupByKey t m = (Except.ok (gkeyFn m), compileStep t)) ∧
    (∀ (t : CycleStats) (m : Metric),
      t.filters = none → t.GroupBy ≠ [] → filterCompile t.GroupBy = false →
      (generateGroupByKey t m).1 = Except.error "could not compile pattern" ∧
        (groupBy t m).cache = t.cache) := by
  refine ⟨fun _ => rfl, genKey_of_keyOk, ?_⟩
  intro t m hf hg hc
  have hcond : (t.filters.isNone && !t.GroupBy.isEmpty) = true := by
    simp [hf, List.isEmpty_iff, hg]
  constructor
  · unfold generateGroupByKey
    rw [if_pos hcond, if_neg (by simp [hc])]
  · unfold groupBy generateGroupByKey
    rw [if_pos hcond, if_neg (by simp [hc])]

/-- Witness for C9's amended theorem: the default engine `tW` compiles its
pattern and computes keys totally; `tBadCfg` errors and drops. -/
theorem init_lazy_compilation_witness :
    Init tW = none ∧
      generateGroupByKey tW mW1 = (Except.ok (gkeyFn mW1), compileStep tW) ∧
      ((generateGroupByKey tBadCfg mW1).1 = Except.error "could not compile pattern" ∧
        (groupBy tBadCfg mW1).cache = tBadCfg.cache) :=
  ⟨init_lazy_compilation.1 tW,
   init_lazy_compilation.2.1 tW mW1 (by right; right; decide),
   init_lazy_compilation.2.2 tBadCfg mW1 (by decide) (by decide) (by decide)⟩

/-- Claim C10: `Reset` always leaves an empty cache (so a second `Reset` does
too), and a flush performed on a reset engine returns an empty aggregate batch. -/
theorem reset_idempotent :
    (∀ t : CycleStats, (Reset t).cache = []) ∧
    (∀ t : CycleStats, (Reset (Reset t)).cache = []) ∧
    (∀ t : CycleStats, (push (Reset t)).1 = []) :=
  ⟨fun _ => rfl, fun _ => rfl, fun _ => rfl⟩

theorem groupBy_Fields (t : CycleStats) (m : Metric) : (groupBy t m).Fields = t.Fields := by
  unfold groupBy
  rcases hg : generateGroupByKey t m with ⟨r, t1⟩
  have h1 : t1.Fields = t.Fields := by
    have := genKey_snd_Fields t m
    rw [hg] at this
    exact this
  cases r with
  | error e => simpa using h1
  | ok k => simpa using h1

theorem applyLoop_fst_Fields :
    ∀ (xs : List Metric) (t : CycleStats) (gk : List Char) (meas : String),
      (applyLoop t gk meas xs).1.Fields = t.Fields := by
  intro xs
  induction xs with
  | nil => intro t gk meas; rfl
  | cons m xs ih =>
      intro t gk meas
      rw [applyLoop_cons, ih]
      by_cases h : (lookupD t.Fields m.name []).any (fun f => m.HasField f) = true
      · rw [if_pos h, groupBy_Fields, genKey_snd_Fields]
      · rw [if_neg h, genKey_snd_Fields]

theorem apply_flush_when_last_unknown (t : CycleStats) (ins : List Metric) (m : Metric)
    (htbl : lookupD t.Fields m.name [] = []) :
    (applyLoopRes t (ins ++ [m])).1.cache = (applyLoopRes t ins).1.cache ∧
    Apply t (ins ++ [m]) =
      ((applyLoopRes t (ins ++ [m])).1.cache.map fun e => Aggregate e.2,
        Reset (applyLoopRes t (ins ++ [m])).1) := by
  have hF0 : (applyLoopRes t ins).1.Fields = t.Fields := applyLoop_fst_Fields ins t [] ""
  have happ : applyLoopRes t (ins ++ [m]) =
      applyLoop (applyLoopRes t ins).1 (applyLoopRes t ins).2.1
        (applyLoopRes t ins).2.2 [m] :=
    applyLoop_append ins t [] "" [m]
  have hhas : (lookupD (applyLoopRes t ins).1.Fields m.name []).any
      (fun f => m.HasField f) = false := by
    rw [hF0, htbl]
    rfl
  have hstep : applyLoop (applyLoopRes t ins).1 (applyLoopRes t ins).2.1
      (applyLoopRes t ins).2.2 [m] =
      ((generateGroupByKey (applyLoopRes t ins).1 m).2,
        (match (generateGroupByKey (applyLoopRes t ins).1 m).1 with
         | Except.ok k => k
         | Except.error _ => []), m.name) := by
    rw [applyLoop_cons_skipped _ _ _ _ _ hhas, applyLoop_nil]
  have hcache : (applyLoopRes t (ins ++ [m])).1.cache = (applyLoopRes t ins).1.cache := by
    rw [happ, hstep]
    exact genKey_snd_cache _ m
  refine ⟨hcache, ?_⟩
  have hmeas : (applyLoopRes t (ins ++ [m])).2.2 = m.name := by rw [happ, hstep]
  have hFall : (applyLoopRes t (ins ++ [m])).1.Fields = t.Fields :=
    applyLoop_fst_Fields _ t [] ""
  simp only [Apply]
  rw [hmeas, hFall, htbl]
  rw [if_pos (by simp)]
  rfl

/-- Claim C2: whenever the completeness condition holds after processing a
batch, `Apply` emits one aggregate per group buffered in the cache at that
moment — every key, not only the triggering one — and the cache is empty
afterwards. -/
theorem global_flush (t : CycleStats) (ins : List Metric)
    (h : completeAfter t ins = true) :
    (Apply t ins).1 = (applyLoopRes t ins).1.cache.map (fun e => Aggregate e.2) ∧
    (Apply t ins).2.cache = [] := by
  simp only [completeAfter] at h
  have hc := of_decide_eq_true h
  simp only [Apply]
  rw [if_pos hc]
  exact ⟨rfl, rfl⟩

/-- Witness for C2: engine `tW1f` holds an unrelated buffered group for
"grind" while a "steam" metric completes; both groups are emitted and the
cache is emptied. -/
theorem global_flush_witness :
    completeAfter tW1f [mW1] = true ∧
      ((Apply tW1f [mW1]).1 =
        (applyLoopRes tW1f [mW1]).1.cache.map (fun e => Aggregate e.2) ∧
      (Apply tW1f [mW1]).2.cache = []) :=
  ⟨by decide, global_flush tW1f [mW1] (by decide)⟩

/-- Claim C4, counterexample: with the group for `mWz` buffered, processing the
control metric named "state_change" does NOT silently clear the cache: the
buffered group is merged and emitted (the claim says nothing is emitted for
the cleared groups). -/
theorem state_change_counterexample :
    tWne.cache ≠ [] ∧ (Apply tWne [scW]).1 ≠ [] := by
  constructor
  · decide
  · decide

/-- Claim C4, amended: a metric named "state_change" (which has no entry in the
required-field table) is never buffered — the cache after the batch loop is
unchanged — and, its required-field count being zero, it triggers a full
flush: every buffered group is merged and emitted, and the cache is left
empty. The control metric itself does not appear in the output, which is built
only from the previously buffered groups. -/
theorem state_change_flushes (t : CycleStats) (sc : Metric)
    (hname : sc.name = "state_change")
    (htbl : lookupD t.Fields "state_change" [] = []) :
    (applyLoopRes t [sc]).1.cache = t.cache ∧
    (Apply t [sc]).1 = t.cache.map (fun e => Aggregate e.2) ∧
    (Apply t [sc]).2.cache = [] := by
  have htbl2 : lookupD t.Fields sc.name [] = [] := by rw [hname]; exact htbl
  have h := apply_flush_when_last_unknown t [] sc htbl2
  simp only [List.nil_append] at h
  have h0 : (applyLoopRes t []).1.cache = t.cache := rfl
  have hc : (applyLoopRes t [sc]).1.cache = t.cache := by rw [h.1, h0]
  refine ⟨hc, ?_, ?_⟩
  · rw [h.2, hc]
  · rw [h.2]
    rfl

/-- Witness for C4's amended theorem at the concrete engine `tWne`. -/
theorem state_change_flushes_witness :
    (applyLoopRes tWne [scW]).1.cache = tWne.cache ∧
      (Apply tWne [scW]).1 = tWne.cache.map (fun e => Aggregate e.2) ∧
      (Apply tWne [scW]).2.cache = [] :=
  state_change_flushes tWne scW (by decide) (by decide)

/-- Claim C5, counterexample: with the group for `mWz` buffered, applying a
batch holding the single unknown-measurement metric `uW` does not return an
empty batch with an unchanged cache — it flushes: the buffered group is
emitted and the cache is reset. -/
theorem unknown_drop_counterexample :
    ¬ ((Apply tWne [uW]).1 = [] ∧ (Apply tWne [uW]).2 = tWne) := by
  decide

/-- Claim C5, amended: a metric whose measurement name has no entry in the
required-field table is dropped without being buffered (the batch loop leaves
the cache unchanged) and never forwarded; however its required-field count is
zero, so the call triggers a full flush: every previously buffered group is
merged and emitted and the cache is reset. Only when the cache was already
empty is the returned batch empty. -/
theorem unknown_measurement_flushes (t : CycleStats) (u : Metric)
    (htbl : lookupD t.Fields u.name [] = []) :
    (applyLoopRes t [u]).1.cache = t.cache ∧
    (Apply t [u]).1 = t.cache.map (fun e => Aggregate e.2) ∧
    (Apply t [u]).2.cache = [] ∧
    (t.cache = [] → (Apply t [u]).1 = []) := by
  have h := apply_flush_when_last_unknown t [] u htbl
  simp only [List.nil_append] at h
  have h0 : (applyLoopRes t []).1.cache = t.cache := rfl
  have hc : (applyLoopRes t [u]).1.cache = t.cache := by rw [h.1, h0]
  have hout : (Apply t [u]).1 = t.cache.map (fun e => Aggregate e.2) := by
    rw [h.2, hc]
  refine ⟨hc, hout, ?_, ?_⟩
  · rw [h.2]
    rfl
  · intro hemp
    rw [hout, hemp]
    rfl

/-- Witness for C5's amended theorem at the concrete engine `tWne`. -/
theorem unknown_measurement_flushes_witness :
    (applyLoopRes tWne [uW]).1.cache = tWne.cache ∧
      (Apply tWne [uW]).1 = tWne.cache.map (fun e => Aggregate e.2) ∧
      (Apply tWne [uW]).2.cache = [] ∧
      (tWne.cache = [] → (Apply tWne [uW]).1 = []) :=
  unknown_measurement_flushes tWne uW (by decide)

/-- Claim C6: an empty batch, or a batch whose last metric's measurement name
has no table entry, always flushes: the required-field count compared against
is zero, so the completeness test succeeds, every buffered group is merged and
returned, and the cache is reset. -/
theorem trivial_completeness_flush :
    (∀ t : CycleStats, lookupD t.Fields "" [] = [] →
      Apply t [] = (t.cache.map (fun e => Aggregate e.2), Reset t)) ∧
    (∀ (t : CycleStats) (ins : List Metric) (m : Metric),
      lookupD t.Fields m.name [] = [] →
      (Apply t (ins ++ [m])).1 =
        (applyLoopRes t (ins ++ [m])).1.cache.map (fun e => Aggregate e.2) ∧
      (Apply t (ins ++ [m])).2.cache = []) := by
  constructor
  · intro t htbl
    have h0 : applyLoopRes t [] = (t, [], "") := rfl
    simp only [Apply, h0]
    rw [htbl]
    rw [if_pos (by simp)]
    rfl
  · intro t ins m htbl
    have h := apply_flush_when_last_unknown t ins m htbl
    constructor
    · rw [h.2]
    · rw [h.2]
      rfl

/-- Witness for C6: the empty batch flushes the buffered engine `tWne`, and a
batch ending in the unknown-measurement metric `uW` flushes everything
buffered by then. -/
theorem trivial_completeness_flush_witness :
    (Apply tWne [] = (tWne.cache.map (fun e => Aggregate e.2), Reset tWne)) ∧
      ((Apply tWne ([mW1] ++ [uW])).1 =
        (applyLoopRes tWne ([mW1] ++ [uW])).1.cache.map (fun e => Aggregate e.2) ∧
      (Apply tWne ([mW1] ++ [uW])).2.cache = []) :=
  ⟨trivial_completeness_flush.1 tWne (by decide),
   trivial_completeness_flush.2 tWne [mW1] uW (by decide)⟩

theorem cacheAppend_wf :
    ∀ (c : List (List Char × List Metric)) (k : List Char) (m : Metric),
      (∀ e ∈ c, e.2 ≠ []) → ∀ e ∈ cacheAppend c k m, e.2 ≠ [] := by
  intro c
  induction c with
  | nil =>
      intro k m h e he
      simp only [cacheAppend, List.mem_singleton] at he
      subst he
      simp
  | cons p rest ih =>
      intro k m h e he
      obtain ⟨k0, ms⟩ := p
      simp only [cacheAppend] at he
      by_cases hk : k0 = k
      · rw [if_pos hk] at he
        rcases List.mem_cons.mp he with he1 | he2
        · subst he1; simp
        · exact h e (List.mem_cons_of_mem _ he2)
      · rw [if_neg hk] at he
        rcases List.mem_cons.mp he with he1 | he2
        · subst he1
          exact h (k0, ms) (List.mem_cons_self _ _)
        · exact ih k m (fun x hx => h x (List.mem_cons_of_mem _ hx)) e he2

theorem genKey_wf (t : CycleStats) (m : Metric) (h : cacheWF t) :
    cacheWF (generateGroupByKey t m).2 := by
  intro e he
  rw [genKey_snd_cache] at he
  exact h e he

theorem groupBy_wf (t : CycleStats) (m : Metric) (h : cacheWF t) : cacheWF (groupBy t m) := by
  unfold groupBy
  rcases hg : generateGroupByKey t m with ⟨r, t1⟩
  have h1 : t1.cache = t.cache := by
    have := genKey_snd_cache t m
    rw [hg] at this
    exact this
  cases r with
  | error e =>
      intro e' he'
      rw [h1] at he'
      exact h e' he'
  | ok k =>
      intro e' he'
      refine cacheAppend_wf t1.cache k m ?_ e' he'
      intro x hx
      rw [h1] at hx
      exact h x hx

theorem applyLoop_wf :
    ∀ (xs : List Metric) (t : CycleStats) (gk : List Char) (meas : String),
      cacheWF t → cacheWF (applyLoop t gk meas xs).1 := by
  intro xs
  induction xs with
  | nil => intro t gk meas h; exact h
  | cons m xs ih =>
      intro t gk meas h
      rw [applyLoop_cons]
      refine ih _ _ _ ?_
      by_cases hc : (lookupD t.Fields m.name []).any (fun f => m.HasField f) = true
      · rw [if_pos hc]
        exact groupBy_wf _ m (genKey_wf t m h)
      · rw [if_neg hc]
        exact genKey_wf t m h

theorem cacheAppend_mem :
    ∀ (c : List (List Char × List Metric)) (k : List Char) (m : Metric),
      ∃ l, alookup (cacheAppend c k m) k = some l ∧ l ≠ [] := by
  intro c
  induction c with
  | nil => intro k m; refine ⟨[m], ?_, by simp⟩; simp [cacheAppend, alookup]
  | cons p rest ih =>
      intro k m
      obtain ⟨k0, ms⟩ := p
      by_cases hk : k0 = k
      · refine ⟨ms ++ [m], ?_, by simp⟩
        simp [cacheAppend, if_pos hk, alookup, hk]
      · obtain ⟨l, hl, hlne⟩ := ih k m
        refine ⟨l, ?_, hlne⟩
        simp [cacheAppend, if_neg hk, alookup, hk, hl]

/-- Claim C7: every engine operation preserves the cache-shape invariant that
each cached buffer is non-empty (a key is present exactly when a metric has
been buffered under it: `cacheAppend` always leaves a non-empty buffer under
the inserted key, and `Reset`/`push` leave no keys at all), and under this
invariant merging is total: every flushed group produces an aggregate, so
completeness and merge have no error path over buffered data. -/
theorem cache_shape_invariant :
    (∀ (t : CycleStats) (m : Metric), cacheWF t → cacheWF (groupBy t m)) ∧
    (∀ (t : CycleStats) (ins : List Metric), cacheWF t → cacheWF (Apply t ins).2) ∧
    (∀ t : CycleStats, cacheWF (push t).2) ∧
    (∀ t : CycleStats, cacheWF (Reset t)) ∧
    (∀ (c : List (List Char × List Metric)) (k : List Char) (m : Metric),
      ∃ l, alookup (cacheAppend c k m) k = some l ∧ l ≠ []) ∧
    (∀ buf : List Metric, buf ≠ [] → ∃ a, Aggregate buf = some a) ∧
    (∀ t : CycleStats, cacheWF t → ∀ o ∈ (push t).1, ∃ a, o = some a) := by
  refine ⟨groupBy_wf, ?_, ?_, ?_, cacheAppend_mem, ?_, ?_⟩
  · intro t ins h
    simp only [Apply]
    split
    · intro e he
      simp only [push, Reset, List.not_mem_nil] at he
    · exact applyLoop_wf ins t [] "" h
  · intro t e he
    simp only [push, Reset, List.not_mem_nil] at he
  · intro t e he
    simp only [Reset, List.not_mem_nil] at he
  · intro buf hb
    cases buf with
    | nil => exact absurd rfl hb
    | cons m rest => exact ⟨_, rfl⟩
  · intro t h o ho
    simp only [push] at ho
    obtain ⟨e, he, heq⟩ := List.mem_map.mp ho
    have hne := h e he
    cases hbuf : e.2 with
    | nil => exact absurd hbuf hne
    | cons m rest =>
        refine ⟨rest.foldl addAllFields m.Copy, ?_⟩
        rw [← heq, hbuf]
        rfl

/-- Witness for C7 at the concrete engine `tWne` (one non-empty buffered
group): the invariant holds, is preserved by a concrete `Apply`, merging the
concrete buffer succeeds, and every flushed output is a real metric. -/
theorem cache_shape_invariant_witness :
    cacheWF tWne ∧ cacheWF (Apply tWne [mW1]).2 ∧
      (∃ a, Aggregate [mWz] = some a) ∧
      (∀ o ∈ (push tWne).1, ∃ a, o = some a) := by
  have h1 : cacheWF tWne := by
    intro e he
    simp only [tWne, List.mem_singleton] at he
    subst he
    simp
  exact ⟨h1, cache_shape_invariant.2.1 tWne [mW1] h1,
    cache_shape_invariant.2.2.2.2.2.1 [mWz] (by simp),
    cache_shape_invariant.2.2.2.2.2.2 tWne h1⟩

theorem alookup_addFieldList_same (fs : List (String × FValue)) (k : String) (v : FValue) :
    alookup (addFieldList fs k v) k = some v := by
  induction fs with
  | nil => simp [addFieldList, alookup]
  | cons p rest ih =>
      obtain ⟨k0, v0⟩ := p
      by_cases h : k0 = k
      · simp [addFieldList, if_pos h, alookup]
      · simp only [addFieldList, if_neg h, alookup]
        exact ih

theorem alookup_addFieldList_other (fs : List (String × FValue)) (ka : String) (v : FValue)
    (k : String) (h : ka ≠ k) : alookup (addFieldList fs ka v) k = alookup fs k := by
  induction fs with
  | nil => simp [addFieldList, alookup, if_neg h]
  | cons p rest ih =>
      obtain ⟨k0, v0⟩ := p
      by_cases h0 : k0 = ka
      · subst h0
        simp only [addFieldList, if_pos rfl, alookup]
        rw [if_neg h, if_neg h]
      · simp only [addFieldList, if_neg h0, alookup]
        by_cases h1 : k0 = k
        · rw [if_pos h1, if_pos h1]
        · rw [if_neg h1, if_neg h1]
          exact ih

theorem foldl_addField_name :
    ∀ (fl : List (String × FValue)) (acc : Metric),
      (fl.foldl (fun a kv => a.AddField kv.1 kv.2) acc).name = acc.name := by
  intro fl
  induction fl with
  | nil => intro acc; rfl
  | cons p rest ih => intro acc; rw [List.foldl_cons, ih]; rfl

theorem foldl_addField_tags :
    ∀ (fl : List (String × FValue)) (acc : Metric),
      (fl.foldl (fun a kv => a.AddField kv.1 kv.2) acc).tags = acc.tags := by
  intro fl
  induction fl with
  | nil => intro acc; rfl
  | cons p rest ih => intro acc; rw [List.foldl_cons, ih]; rfl

theorem foldl_addField_time :
    ∀ (fl : List (String × FValue)) (acc : Metric),
      (fl.foldl (fun a kv => a.AddField kv.1 kv.2) acc).time = acc.time := by
  intro fl
  induction fl with
  | nil => intro acc; rfl
  | cons p rest ih => intro acc; rw [List.foldl_cons, ih]; rfl

theorem foldl_addAllFields_name :
    ∀ (ms : List Metric) (base : Metric), (ms.foldl addAllFields base).name = base.name := by
  intro ms
  induction ms with
  | nil => intro base; rfl
  | cons x rest ih =>
      intro base
      rw [List.foldl_cons, ih]
      exact foldl_addField_name x.fields base

theorem foldl_addAllFields_tags :
    ∀ (ms : List Metric) (base : Metric), (ms.foldl addAllFields base).tags = base.tags := by
  intro ms
  induction ms with
  | nil => intro base; rfl
  | cons x rest ih =>
      intro base
      rw [List.foldl_cons, ih]
      exact foldl_addField_tags x.fields base

theorem foldl_addAllFields_time :
    ∀ (ms : List Metric) (base : Metric), (ms.foldl addAllFields base).time = base.time := by
  intro ms
  induction ms with
  | nil => intro base; rfl
  | cons x rest ih =>
      intro base
      rw [List.foldl_cons, ih]
      exact foldl_addField_time x.fields base

theorem foldl_addField_lookup :
    ∀ (fl : List (String × FValue)) (acc : Metric) (k : String),
      (fl.map Prod.fst).Nodup →
      alookup (fl.foldl (fun a kv => a.AddField kv.1 kv.2) acc).fields k =
        match alookup fl k with
        | some v => some v
        | none => alookup acc.fields k := by
  intro fl
  induction fl with
  | nil => intro acc k h; rfl
  | cons p rest ih =>
      intro acc k h
      obtain ⟨k0, v0⟩ := p
      simp only [List.map_cons, List.nodup_cons] at h
      rw [List.foldl_cons, ih _ k h.2]
      by_cases hkk : k0 = k
      · subst hkk
        rw [alookup_eq_none rest k0 h.1]
        have h2 : alookup ((k0, v0) :: rest) k0 = some v0 := by simp [alookup]
        rw [h2]
        show alookup (Metric.AddField acc k0 v0).fields k0 = some v0
        exact alookup_addFieldList_same acc.fields k0 v0
      · have h3 : alookup ((k0, v0) :: rest) k = alookup rest k := by
          simp [alookup, if_neg hkk]
        rw [h3]
        cases halk : alookup rest k with
        | some v => rfl
        | none =>
            show alookup (Metric.AddField acc k0 v0).fields k = alookup acc.fields k
            exact alookup_addFieldList_other acc.fields k0 v0 k hkk

theorem foldl_addAllFields_lookup :
    ∀ (ms : List Metric) (base : Metric) (k : String),
      (∀ x ∈ ms, (x.fields.map Prod.fst).Nodup) →
      alookup (ms.foldl addAllFields base).fields k =
        ms.foldl
          (fun acc x =>
            match alookup x.fields k with
            | some v => some v
            | none => acc)
          (alookup base.fields k) := by
  intro ms
  induction ms using List.reverseRecOn with
  | nil => intro base k h; rfl
  | append_singleton ms x ih =>
      intro base k h
      rw [List.foldl_append, List.foldl_append]
      simp only [List.foldl_cons, List.foldl_nil]
      rw [show addAllFields (List.foldl addAllFields base ms) x =
        x.fields.foldl (fun a kv => a.AddField kv.1 kv.2)
          (List.foldl addAllFields base ms) from rfl]
      rw [foldl_addField_lookup x.fields _ k (h x (List.mem_append_right ms (List.mem_cons_self x [])))]
      rw [ih base k (fun y hy => h y (List.mem_append_left [x] hy))]

/-- Claim C3: merging a non-empty buffered group produces exactly one
aggregate; its name, tags and timestamp are those of the first metric in the
buffer (tags of later metrics are never merged), and its field set is the
union of all buffered metrics' fields in buffer order with last-writer-wins on
duplicate field keys (`lwwLookup`). Distinct field keys inside each
subsequent metric model telegraf's own field-map invariant. -/
theorem aggregate_merge_semantics (m : Metric) (ms : List Metric)
    (hnodup : ∀ x ∈ ms, (x.fields.map Prod.fst).Nodup) :
    ∃ agg, Aggregate (m :: ms) = some agg ∧ agg.name = m.name ∧ agg.tags = m.tags ∧
      agg.time = m.time ∧ ∀ k, alookup agg.fields k = lwwLookup (m :: ms) k := by
  refine ⟨ms.foldl addAllFields m.Copy, rfl, foldl_addAllFields_name ms m.Copy,
    foldl_addAllFields_tags ms m.Copy, foldl_addAllFields_time ms m.Copy, ?_⟩
  intro k
  rw [foldl_addAllFields_lookup ms m.Copy k hnodup]
  unfold lwwLookup
  rw [List.foldl_cons]
  have hbase : alookup (Metric.Copy m).fields k =
      (match alookup m.fields k with
       | some v => some v
       | none => (none : Option FValue)) := by
    show alookup m.fields k =
      (match alookup m.fields k with
       | some v => some v
       | none => (none : Option FValue))
    cases alookup m.fields k <;> rfl
  rw [hbase]

/-- Witness for C3: buffering a metric with field x=1 then one with x=2 under
the same key yields one aggregate carrying x=2 and the first metric's tags. -/
theorem aggregate_merge_semantics_witness :
    alookup ((Aggregate [mWx1, mWx2]).getD mWx1).fields "x" = some (FValue.intV 2) ∧
      ((Aggregate [mWx1, mWx2]).getD mWx1).tags = mWx1.tags := by
  obtain ⟨agg, h1, hname, htags, htime, hfields⟩ :=
    aggregate_merge_semantics mWx1 [mWx2] (by decide)
  rw [h1, Option.getD_some]
  refine ⟨?_, htags⟩
  rw [hfields "x"]
  decide

theorem bufCache_ne_nil (gk : List Char) (l : List Metric) (h : l ≠ []) :
    bufCache gk l = [(gk, l)] := by
  cases l with
  | nil => exact absurd rfl h
  | cons x xs => rfl

theorem applyChain_nil (t : CycleStats) : applyChain t [] = ([], t) := rfl

theorem applyChain_cons (t : CycleStats) (m : Metric) (rest : List Metric) :
    applyChain t (m :: rest) =
      ((Apply t [m]).1 :: (applyChain (Apply t [m]).2 rest).1,
        (applyChain (Apply t [m]).2 rest).2) := rfl

theorem c1_aux :
    ∀ (rest : List Metric) (t : CycleStats) (buf : List Metric) (n : String)
      (flds : List String) (gk : List Char),
      keyOk t →
      lookupD t.Fields n [] = flds →
      t.cache = bufCache gk buf →
      (∀ m ∈ rest, m.name = n) →
      (∀ m ∈ rest, gkeyFn m = gk) →
      (∀ m ∈ rest, flds.any (fun f => m.HasField f) = true) →
      buf.length + rest.length = flds.length →
      rest ≠ [] →
      ∃ out : List (Option Metric), out ≠ [] ∧
        (applyChain t rest).1 = List.replicate (rest.length - 1) [] ++ [out] ∧
        (applyChain t rest).2.cache = [] := by
  intro rest
  induction rest with
  | nil =>
      intro t buf n flds gk _ _ _ _ _ _ _ hne
      exact absurd rfl hne
  | cons m rest' ih =>
      intro t buf n flds gk hk htbl hcache hname hkey hhas hlen _
      have hmn : m.name = n := hname m (List.mem_cons_self m rest')
      have hmk : gkeyFn m = gk := hkey m (List.mem_cons_self m rest')
      have hmhas : flds.any (fun f => m.HasField f) = true :=
        hhas m (List.mem_cons_self m rest')
      have hhas' : (lookupD t.Fields m.name []).any (fun f => m.HasField f) = true := by
        rw [hmn, htbl]
        exact hmhas
      set T2 : CycleStats := { compileStep t with cache := bufCache gk (buf ++ [m]) }
        with hT2def
      have hloop : applyLoopRes t [m] = (T2, gk, m.name) := by
        show applyLoop t [] "" [m] = _
        rw [applyLoop_cons_buffered t [] "" m [] hk hhas', applyLoop_nil, hmk, hcache,
          cacheAppend_bufCache, hT2def]
      have hT2cache : T2.cache = bufCache gk (buf ++ [m]) := by rw [hT2def]
      have hT2F : T2.Fields = t.Fields := by
        rw [hT2def]
        exact compileStep_Fields t
      have hT2k : keyOk T2 := by
        rw [hT2def]
        exact keyOk_update_cache (compileStep t) _ (keyOk_compileStep t hk)
      have happ : Apply t [m] =
          (if (cacheLookupD T2.cache gk).length ≥ (lookupD T2.Fields m.name []).length
          then push T2 else ([], T2)) := by
        simp only [Apply, hloop]
      have hcnt : (cacheLookupD T2.cache gk).length = buf.length + 1 := by
        rw [hT2cache, cacheLookupD_bufCache]
        simp
      have hreq : (lookupD T2.Fields m.name []).length = flds.length := by
        rw [hT2F, hmn, htbl]
      cases rest' with
      | nil =>
          have hflds : buf.length + 1 = flds.length := by simpa using hlen
          have hcond : (cacheLookupD T2.cache gk).length ≥
              (lookupD T2.Fields m.name []).length := by
            rw [hcnt, hreq]
            omega
          have happly : Apply t [m] = push T2 := by rw [happ, if_pos hcond]
          have hpush1 : (push T2).1 = [Aggregate (buf ++ [m])] := by
            simp only [push]
            rw [bufCache_ne_nil gk (buf ++ [m]) (by simp)]
            rfl
          refine ⟨(push T2).1, ?_, ?_, ?_⟩
          · rw [hpush1]
            simp
          · simp only [applyChain_cons, happly, applyChain_nil]
            simp
          · simp only [applyChain_cons, happly, applyChain_nil]
            rfl
      | cons m2 rest'' =>
          simp only [List.length_cons] at hlen
          have hlt : ¬ ((cacheLookupD T2.cache gk).length ≥
              (lookupD T2.Fields m.name []).length) := by
            rw [hcnt, hreq]
            omega
          have happly : Apply t [m] = ([], T2) := by rw [happ, if_neg hlt]
          obtain ⟨out, ho1, ho2, ho3⟩ := ih T2 (buf ++ [m]) n flds gk hT2k
            (by rw [hT2F]; exact htbl) hT2cache
            (fun x hx => hname x (List.mem_cons_of_mem m hx))
            (fun x hx => hkey x (List.mem_cons_of_mem m hx))
            (fun x hx => hhas x (List.mem_cons_of_mem m hx))
            (by simp only [List.length_append, List.length_cons, List.length_nil]; omega)
            (by simp)
          have hchain : applyChain t (m :: m2 :: rest'') =
              ([] :: (applyChain T2 (m2 :: rest'')).1,
                (applyChain T2 (m2 :: rest'')).2) := by
            rw [applyChain_cons, happly]
          refine ⟨out, ho1, ?_, ?_⟩
          · rw [hchain]
            show [] :: (applyChain T2 (m2 :: rest'')).1 = _
            rw [ho2]
            simp only [List.length_cons, Nat.add_sub_cancel]
            rw [List.replicate_succ]
            rfl
          · rw [hchain]
            exact ho3

/-- Claim C1: for a measurement whose required-field list is non-empty (length
K), delivering K metrics with that name and the same truncated second — each
carrying at least one required field — one per `Apply` call starting from an
empty cache, every call before the Kth returns an empty batch and the call
that buffers the Kth metric triggers the flush, emitting a non-empty batch and
emptying the cache. -/
theorem completeness_threshold (t0 : CycleStats) (n : String) (flds : List String)
    (ms : List Metric) (τ : Nat)
    (hkeyok : keyOk t0)
    (htbl : lookupD t0.Fields n [] = flds)
    (hK : flds ≠ [])
    (hcache : t0.cache = [])
    (hlen : ms.length = flds.length)
    (hname : ∀ m ∈ ms, m.name = n)
    (htime : ∀ m ∈ ms, truncSec m.time = τ)
    (hfield : ∀ m ∈ ms, flds.any (fun f => m.HasField f) = true) :
    ∃ out : List (Option Metric), out ≠ [] ∧
      (applyChain t0 ms).1 = List.replicate (ms.length - 1) [] ++ [out] ∧
      (applyChain t0 ms).2.cache = [] := by
  have hmsne : ms ≠ [] := by
    intro h
    subst h
    have : flds.length = 0 := by simpa using hlen.symm
    exact hK (List.length_eq_zero.mp this)
  have hkeys : ∀ m ∈ ms, gkeyFn m = n.data ++ '&' :: natToChars τ := by
    intro m hm
    unfold gkeyFn
    rw [hname m hm, htime m hm]
  exact c1_aux ms t0 [] n flds (n.data ++ '&' :: natToChars τ) hkeyok htbl
    (by rw [hcache]; rfl) hname hkeys hfield (by simpa using hlen) hmsne

/-- Witness for C1: the engine `tW` requires fields a and b for "steam" (K=2);
the calls delivering `mW1` then `mW1b` produce outputs [[], flush] with a
non-empty flush and an empty cache at the end. -/
theorem completeness_threshold_witness :
    (applyChain tW [mW1, mW1b]).1 ≠ [] ∧
      (applyChain tW [mW1, mW1b]).2.cache = [] := by
  obtain ⟨out, hne, heq, hc⟩ := completeness_threshold tW "steam" ["a", "b"]
    [mW1, mW1b] 0 (Or.inr (Or.inr (by decide))) (by decide) (by decide) rfl rfl
    (by decide) (by decide) (by decide)
  refine ⟨?_, hc⟩
  rw [heq]
  simp
